import Mathlib

/-!
Verification of the go-maildir library (maildir.go): the folder-name codec
(`encodeName` / `encode` / `encodeSequence`) and the delivery engine
(`CreateMail`), embedded shallowly.

Go strings are modelled as lists of bytes (`List Nat`); the scanning
functions of the source (`isValidChar`, `nextInvalidChar`, `nextValidChar`)
operate on bytes exactly as the Go code indexes `s[i]`.  Recursive Go
loops are modelled with an explicit fuel argument (the list length always
suffices, which is proved), so that every definition is executable by the
kernel.
-/

namespace Maildir

/-- `isValidChar` from maildir.go: printable ASCII 0x20..0x7E except
`.` (46), `/` (47) and `&` (38). -/
def isValidChar (b : Nat) : Bool :=
  if b < 0x20 ∨ 127 ≤ b then false
  else if b = 46 ∨ b = 47 ∨ b = 38 then false
  else true

/-- `nextInvalidChar` from maildir.go: index of the first invalid byte,
or the length if all bytes are valid. -/
def nextInvalidChar : List Nat → Nat
  | [] => 0
  | b :: rest => if isValidChar b then nextInvalidChar rest + 1 else 0

/-- `nextValidChar` from maildir.go: index of the first valid byte,
or the length if no byte is valid. -/
def nextValidChar : List Nat → Nat
  | [] => 0
  | b :: rest => if isValidChar b then 0 else nextValidChar rest + 1

/-- Byte of a list at an index, with an out-of-range sentinel 0x100 that
fails every UTF-8 continuation-range check, exactly as Go's
`utf8.DecodeRune` returns `(RuneError, 1)` on a truncated sequence. -/
def byteAt (s : List Nat) (i : Nat) : Nat := (s.drop i).headD 0x100

/-- The body of Go's `utf8.DecodeRune` on the first byte `b0` and the (up
to) three following bytes (0x100 meaning "missing", which fails every
continuation check exactly as Go returns `(RuneError, 1)` on a truncated
sequence).  The accept ranges for the second byte (`E0:A0-BF`,
`ED:80-9F`, `F0:90-BF`, `F4:80-8F`) follow Go's `utf8.acceptRanges`
table. -/
def dr4 (b0 c1 c2 c3 : Nat) : Nat × Nat :=
  if b0 < 0x80 then (b0, 1)
  else if b0 < 0xC2 then (0xFFFD, 1)
  else if b0 < 0xE0 then
    if 0x80 ≤ c1 ∧ c1 ≤ 0xBF then ((b0 - 0xC0) * 64 + (c1 - 0x80), 2)
    else (0xFFFD, 1)
  else if b0 < 0xF0 then
    if (if b0 = 0xE0 then 0xA0 else 0x80) ≤ c1 ∧
        c1 ≤ (if b0 = 0xED then 0x9F else 0xBF) then
      if 0x80 ≤ c2 ∧ c2 ≤ 0xBF then
        ((b0 - 0xE0) * 4096 + (c1 - 0x80) * 64 + (c2 - 0x80), 3)
      else (0xFFFD, 1)
    else (0xFFFD, 1)
  else if b0 < 0xF5 then
    if (if b0 = 0xF0 then 0x90 else 0x80) ≤ c1 ∧
        c1 ≤ (if b0 = 0xF4 then 0x8F else 0xBF) then
      if 0x80 ≤ c2 ∧ c2 ≤ 0xBF then
        if 0x80 ≤ c3 ∧ c3 ≤ 0xBF then
          ((b0 - 0xF0) * 262144 + (c1 - 0x80) * 4096 + (c2 - 0x80) * 64
            + (c3 - 0x80), 4)
        else (0xFFFD, 1)
      else (0xFFFD, 1)
    else (0xFFFD, 1)
  else (0xFFFD, 1)

/-- Go's `utf8.DecodeRune` on a byte list: the decoded rune and the number
of bytes consumed; invalid or truncated sequences yield `(0xFFFD, 1)`. -/
def decodeRune (s : List Nat) : Nat × Nat :=
  match s with
  | [] => (0xFFFD, 0)
  | b0 :: rest => dr4 b0 (byteAt rest 0) (byteAt rest 1) (byteAt rest 2)

/-- Go's `[]rune(s)` conversion, fuelled: decode UTF-8 byte by byte,
replacing invalid sequences with U+FFFD. -/
def utf8DecodeGo : Nat → List Nat → List Nat
  | 0, _ => []
  | _, [] => []
  | fuel + 1, b :: rest =>
    (decodeRune (b :: rest)).1
      :: utf8DecodeGo fuel ((b :: rest).drop (decodeRune (b :: rest)).2)

/-- Go's `[]rune(s)` conversion of a byte string to its runes. -/
def utf8Decode (s : List Nat) : List Nat := utf8DecodeGo s.length s

/-- Go's `utf16.Encode` on a single rune: one 16-bit unit for BMP scalars,
a surrogate pair above the BMP, U+FFFD for anything invalid. -/
def utf16EncodeRune (r : Nat) : List Nat :=
  if r < 0x10000 then
    if 0xD800 ≤ r ∧ r < 0xE000 then [0xFFFD] else [r]
  else if r ≤ 0x10FFFF then
    [0xD800 + (r - 0x10000) / 1024, 0xDC00 + (r - 0x10000) % 1024]
  else [0xFFFD]

/-- Go's `utf16.Encode` on a rune list. -/
def utf16Encode : List Nat → List Nat
  | [] => []
  | r :: rest => utf16EncodeRune r ++ utf16Encode rest

/-- The big-endian byte serialisation of 16-bit units built by
`encodeSequence` in maildir.go (`utf16be`). -/
def utf16beBytes : List Nat → List Nat
  | [] => []
  | u :: rest => u / 256 :: u % 256 :: utf16beBytes rest

/-- The modified base64 alphabet of maildir.go
(`"ABC...XYZabc...xyz0123456789+,"`), as byte values. -/
def alph (i : Nat) : Nat :=
  if i < 26 then 65 + i
  else if i < 52 then 71 + i
  else if i < 62 then i - 4
  else if i = 62 then 43
  else 44

/-- Base64 over `alph` without padding: what `encodeSequence` keeps of
`maildirBase64.Encode` after stripping at the first `=`. -/
def b64NoPad : List Nat → List Nat
  | [] => []
  | [a] => [alph (a / 4), alph (a % 4 * 16)]
  | [a, b] => [alph (a / 4), alph (a % 4 * 16 + b / 16), alph (b % 16 * 4)]
  | a :: b :: c :: rest =>
    alph (a / 4) :: alph (a % 4 * 16 + b / 16) :: alph (b % 16 * 4 + c / 64)
      :: alph (c % 64) :: b64NoPad rest

/-- `encodeSequence` from maildir.go: `&` + modified base64 of the
UTF-16-BE serialisation of the run's runes, unpadded, + `-`. -/
def encodeSequence (s : List Nat) : List Nat :=
  38 :: b64NoPad (utf16beBytes (utf16Encode (utf8Decode s))) ++ [45]

/-- `encode` from maildir.go, fuelled: split an unsafe run at `&`
characters; a leading `&` becomes the literal `&-`, a maximal `&`-free
prefix becomes one escape sequence.  Go reads `s[0]` and so panics on an
empty run; `encode` is only ever called on non-empty runs (see the C10
theorem), and the `[]` case here is unreachable from `encodeNameGo`. -/
def encodeGo : Nat → List Nat → List Nat
  | 0, _ => []
  | _ + 1, [] => []
  | fuel + 1, b :: rest =>
    if b = 38 then
      38 :: 45 :: (if rest = [] then [] else encodeGo fuel rest)
    else if (b :: rest).findIdx (fun x => x = 38) < (b :: rest).length then
      encodeSequence ((b :: rest).take ((b :: rest).findIdx (fun x => x = 38)))
        ++ encodeGo fuel ((b :: rest).drop ((b :: rest).findIdx (fun x => x = 38)))
    else
      encodeSequence (b :: rest)

/-- `encode` from maildir.go on a run `s` (fuel `s.length` suffices). -/
def encode (s : List Nat) : List Nat := encodeGo s.length s

/-- The loop of `encodeName` from maildir.go, fuelled: copy maximal valid
runs verbatim and escape maximal invalid runs with `encode`. -/
def encodeNameGo : Nat → List Nat → List Nat
  | 0, name => name
  | fuel + 1, name =>
    if nextInvalidChar name < name.length then
      name.take (nextInvalidChar name)
        ++ encode ((name.drop (nextInvalidChar name)).take
            (nextValidChar (name.drop (nextInvalidChar name))))
        ++ encodeNameGo fuel (name.drop (nextInvalidChar name
            + nextValidChar (name.drop (nextInvalidChar name))))
    else name

/-- The encoded segment of a folder name: the output of `encodeName`
without the `m.Path + "."` prefix. -/
def encSeg (name : List Nat) : List Nat := encodeNameGo name.length name

/-- `encodeName` from maildir.go: the parent path, a `.`, and the encoded
segment. -/
def encodeName (path name : List Nat) : List Nat := path ++ 46 :: encSeg name

/-- Bytes of an ASCII string literal (used only for readable statements
about concrete ASCII test vectors, whose UTF-8 bytes are the code points). -/
def byteStr (s : String) : List Nat := s.data.map Char.toNat

/-! ### A decoder for encoded segments (verification tool)

The codec provides no decode operation; the definitions below are *not*
part of the source.  They are a verification-side inverse used to show
that an encoded segment determines the rune sequence of the input, which
settles how far the codec's mapping is unambiguous. -/

/-- A Unicode scalar value: what Go's `[]rune(string)` conversion can
produce (no surrogates, at most U+10FFFF). -/
def isScalar (r : Nat) : Prop := r < 0xD800 ∨ (0xE000 ≤ r ∧ r < 0x110000)

instance (r : Nat) : Decidable (isScalar r) := by
  unfold isScalar; infer_instance

/-- Inverse of the modified base64 alphabet `alph`. -/
def alphInv (b : Nat) : Nat :=
  if 65 ≤ b ∧ b ≤ 90 then b - 65
  else if 97 ≤ b ∧ b ≤ 122 then b - 71
  else if 48 ≤ b ∧ b ≤ 57 then b + 4
  else if b = 43 then 62
  else 63

/-- Inverse of `b64NoPad`: groups of 4/3/2 alphabet characters back to
3/2/1 bytes. -/
def b64Decode : List Nat → List Nat
  | [] => []
  | [_] => []
  | [x, y] => [alphInv x * 4 + alphInv y / 16]
  | [x, y, z] =>
    [alphInv x * 4 + alphInv y / 16, alphInv y % 16 * 16 + alphInv z / 4]
  | x :: y :: z :: w :: rest =>
    (alphInv x * 4 + alphInv y / 16)
      :: (alphInv y % 16 * 16 + alphInv z / 4)
      :: (alphInv z % 4 * 64 + alphInv w)
      :: b64Decode rest

/-- Inverse of `utf16beBytes`: big-endian byte pairs back to 16-bit
units. -/
def unpair : List Nat → List Nat
  | [] => []
  | [a] => [a]
  | a :: b :: rest => (a * 256 + b) :: unpair rest

/-- Inverse of `utf16Encode`: UTF-16 units back to runes (surrogate pairs
recombined). -/
def utf16Decode : List Nat → List Nat
  | [] => []
  | u :: rest =>
    if 0xD800 ≤ u ∧ u < 0xDC00 then
      match rest with
      | [] => [0xFFFD]
      | v :: rest2 =>
        if 0xDC00 ≤ v ∧ v < 0xE000 then
          (0x10000 + (u - 0xD800) * 1024 + (v - 0xDC00)) :: utf16Decode rest2
        else 0xFFFD :: utf16Decode (v :: rest2)
    else if 0xDC00 ≤ u ∧ u < 0xE000 then 0xFFFD :: utf16Decode rest
    else u :: utf16Decode rest

/-- Fuelled parser for encoded segments: safe characters decode to
themselves, `&-` to `&`, and each `&…-` escape through the three inverses
above.  Fuel `l.length` suffices. -/
def decodeSegGo : Nat → List Nat → List Nat
  | 0, _ => []
  | _ + 1, [] => []
  | fuel + 1, b :: rest =>
    if b = 38 then
      match rest with
      | [] => []
      | c :: rest2 =>
        if c = 45 then 38 :: decodeSegGo fuel rest2
        else
          utf16Decode (unpair (b64Decode
              (rest.take (rest.findIdx (fun x => x = 45)))))
            ++ decodeSegGo fuel (rest.drop (rest.findIdx (fun x => x = 45) + 1))
    else b :: decodeSegGo fuel rest

/-- Parser for encoded segments. -/
def decodeSeg (l : List Nat) : List Nat := decodeSegGo l.length l

/-! ### The segment grammar (spec, section "Folder path-segment grammar")

A well-formed encoded segment is a sequence of safe characters and escape
sequences, where an escape is `&` + one-or-more modified-base64 characters
+ `-`, or the literal `&-`.  `segWFAux` is the obvious three-state
automaton for that grammar. -/

/-- Membership in the modified base64 alphabet
(`A-Z`, `a-z`, `0-9`, `+`, `,`). -/
def isB64 (b : Nat) : Bool :=
  (65 ≤ b && b ≤ 90) || (97 ≤ b && b ≤ 122) || (48 ≤ b && b ≤ 57)
    || (b == 43) || (b == 44)

/-- Parser state: outside any escape, just after `&`, or inside an
escape's base64 body. -/
inductive SegSt
  | plain
  | afterAmp
  | inEsc
deriving DecidableEq

/-- The segment-grammar automaton: accepts iff the input is a sequence of
safe characters and well-formed escapes. -/
def segWFAux : SegSt → List Nat → Bool
  | .plain, [] => true
  | .plain, b :: rest =>
    if b = 38 then segWFAux .afterAmp rest
    else isValidChar b && segWFAux .plain rest
  | .afterAmp, [] => false
  | .afterAmp, b :: rest =>
    if b = 45 then segWFAux .plain rest
    else isB64 b && segWFAux .inEsc rest
  | .inEsc, [] => false
  | .inEsc, b :: rest =>
    if b = 45 then segWFAux .plain rest
    else isB64 b && segWFAux .inEsc rest

/-- A well-formed encoded segment. -/
def segWF (l : List Nat) : Bool := segWFAux .plain l

/-! ### The delivery engine (`CreateMail`)

`CreateMail` interleaves computation with calls into the OS (hostname,
open, copy, sync, rename, chown).  The outcomes of those calls are the
`SysEnv` record, and `createMail` below replays the source's control flow
(maildir.go:151-186) over them, tracking the existence (and ownership) of
the two files the function may leave on disk. -/

/-- Decimal digit character. -/
def digitChar (d : Nat) : Char := Char.ofNat (48 + d)

/-- Decimal representation of a natural number (Go's `%v` on an integer),
fuelled; `n < fuel` suffices. -/
def decDigits : Nat → Nat → List Char
  | 0, _ => []
  | fuel + 1, n =>
    if n < 10 then [digitChar n]
    else decDigits fuel (n / 10) ++ [digitChar (n % 10)]

/-- Decimal representation of a natural number. -/
def decRepr (n : Nat) : List Char := decDigits (n + 1) n

/-- Decimal digit predicate on characters. -/
def isDigitCh (c : Char) : Bool := 48 ≤ c.toNat && c.toNat ≤ 57

/-- Value of a decimal digit string. -/
def digitsVal (l : List Char) : Nat :=
  l.foldl (fun a c => a * 10 + (c.toNat - 48)) 0

/-- `DoNotSetOwner` from maildir.go. -/
def DoNotSetOwner : Int := -1

/-- The `Maildir` struct from maildir.go: root path, file-creation
permission, and configured owner ids. -/
structure Mailbox where
  path : List Char
  perm : Nat
  uid : Int
  gid : Int

/-- Outcomes of the OS calls made by one `CreateMail` run, in program
order: the hostname (or failure), the two clock reads, the value received
from the counter channel, and the success of open, copy, sync, rename and
chown. -/
structure SysEnv where
  hostname : Option (List Char)
  sec : Nat
  usec : Nat
  ctr : Nat
  openOk : Bool
  copyOk : Bool
  syncOk : Bool
  renameOk : Bool
  chownOk : Bool

/-- Final state of the two files a `CreateMail` run may touch: whether
the staging (`tmp/`) file and the published (`new/`) file exist when the
function returns, and the (owner, group) pair set on the published file
by a chown, if any. -/
structure FsState where
  tmpExists : Bool
  newExists : Bool
  newOwner : Option (Int × Int)
deriving DecidableEq

/-- `changeOwner` from maildir.go: a no-op when either id is
`DoNotSetOwner`; otherwise `os.Chown(path, uid, gid)` — which on success
sets the file's owner to `uid` and its group to `gid` — with outcome
`ok`.  Returns `none` on error, otherwise the ownership set on the file. -/
def changeOwner (uid gid : Int) (ok : Bool) : Option (Option (Int × Int)) :=
  if uid = DoNotSetOwner ∨ gid = DoNotSetOwner then some none
  else if ok then some (some (uid, gid)) else none

/-- The staging basename of maildir.go:157:
`fmt.Sprintf("%v.M%vP%v_%v.%v", sec, usec, pid, ctr, hostname)`. -/
def mkBasename (sec usec pid ctr : Nat) (host : List Char) : List Char :=
  decRepr sec ++ '.' :: 'M' :: decRepr usec ++ 'P' :: decRepr pid
    ++ '_' :: decRepr ctr ++ '.' :: host

/-- `paths.Join(dir, sub, base)` for the paths the library builds: one
`/` between components (Go's `Join` cleans a trailing `/` on the root
path). -/
def joinPath (dir sub base : List Char) : List Char :=
  (if dir.getLast? = some '/' then dir.dropLast else dir)
    ++ '/' :: sub ++ '/' :: base

/-- The value delivered by the k-th receive from the counter channel of
maildir.go:49-56: the feeding goroutine sends `0, 1, 2, ...` as a Go
`uint`, which wraps at 2^64. -/
def counterStream (k : Nat) : Nat := k % 2 ^ 64

/-- `CreateMail` from maildir.go:151-186 over the call outcomes in `env`:
the returned published path (`none` on error) and the final file state.
`data` is the full input stream; a successful `io.Copy` copies all of it
and returns `data.length`, which is the `size` used in the published
name.  Two faithfulness points mirror the source exactly: the result of
`file.Sync()` is discarded (maildir.go:169), so `env.syncOk` is never
consulted; and the ownership change is invoked as
`changeOwner(newname, m.gid, m.uid)` (maildir.go:178), i.e. with the
configured gid passed as the `uid` argument and vice versa. -/
def createMail (m : Mailbox) (pid : Nat) (env : SysEnv) (data : List Nat) :
    Option (List Char) × FsState :=
  match env.hostname with
  | none => (none, ⟨false, false, none⟩)
  | some host =>
    if env.openOk = false then (none, ⟨false, false, none⟩)
    else if env.copyOk = false then
      -- io.Copy failed: os.Remove(tmpname), return the error
      (none, ⟨false, false, none⟩)
    else
      -- file.Sync() — its error result is ignored by the source
      if env.renameOk = false then
        -- os.Rename failed: os.Remove(tmpname), return the error
        (none, ⟨false, false, none⟩)
      else
        match changeOwner m.gid m.uid env.chownOk with
        | some o =>
          (some (joinPath m.path ('n' :: 'e' :: 'w' :: [])
            (mkBasename env.sec env.usec pid env.ctr host
              ++ ',' :: 'S' :: '=' :: decRepr data.length)),
           ⟨false, true, o⟩)
        | none =>
          -- chown failed: os.Remove(newname), return the error
          (none, ⟨false, false, none⟩)

/-- The message-filename grammar of the spec:
`<seconds>.M<microseconds>P<pid>_<counter>.<hostname>,S=<byte-count>`,
with non-empty decimal numeric fields, an opaque hostname, and the byte
count reading back as `n`. -/
def mailFilenameGrammar (bn : List Char) (n : Nat) : Prop :=
  ∃ s u p c sz host : List Char,
    s ≠ [] ∧ (∀ x ∈ s, isDigitCh x = true) ∧
    u ≠ [] ∧ (∀ x ∈ u, isDigitCh x = true) ∧
    p ≠ [] ∧ (∀ x ∈ p, isDigitCh x = true) ∧
    c ≠ [] ∧ (∀ x ∈ c, isDigitCh x = true) ∧
    sz ≠ [] ∧ (∀ x ∈ sz, isDigitCh x = true) ∧
    bn = s ++ '.' :: 'M' :: u ++ 'P' :: p ++ '_' :: c ++ '.' :: host
      ++ ',' :: 'S' :: '=' :: sz ∧
    digitsVal sz = n

/-- Witness fixture: a mailbox with a configured owner. -/
def wMailbox : Mailbox := ⟨'m' :: 'd' :: '/' :: [], 384, 1000, 2000⟩

/-- Witness fixture: every OS call succeeds. -/
def wEnvOk : SysEnv := ⟨some ('h' :: []), 5, 6, 7, true, true, true, true, true⟩

/-- Witness fixture: a two-byte message. -/
def wData : List Nat := [72, 105]

/-- Witness fixture: all calls succeed and the counter channel delivered
its k-th value. -/
def wEnvK (k : Nat) : SysEnv := { wEnvOk with ctr := counterStream k }

/-- Witness fixture: the published path of a successful delivery with the
k-th counter value. -/
def wName (k : Nat) : List Char :=
  (createMail wMailbox 7 (wEnvK k) wData).1.getD []

/-! ### Basic facts about the scanning functions -/

theorem nextInvalidChar_le_length (s : List Nat) : nextInvalidChar s ≤ s.length := by
  induction s with
  | nil => simp [nextInvalidChar]
  | cons b rest ih =>
    by_cases hb : isValidChar b <;> simp [nextInvalidChar, hb] <;> omega

theorem nextValidChar_le_length (s : List Nat) : nextValidChar s ≤ s.length := by
  induction s with
  | nil => simp [nextValidChar]
  | cons b rest ih =>
    by_cases hb : isValidChar b <;> simp [nextValidChar, hb] <;> omega

theorem nextInvalidChar_eq_length (s : List Nat)
    (h : ∀ b ∈ s, isValidChar b = true) : nextInvalidChar s = s.length := by
  induction s with
  | nil => simp [nextInvalidChar]
  | cons b rest ih =>
    have hb : isValidChar b = true := h b (by simp)
    simp [nextInvalidChar, hb, ih (fun x hx => h x (by simp [hx]))]

theorem nextInvalidChar_valid_take (s : List Nat) :
    ∀ b ∈ s.take (nextInvalidChar s), isValidChar b = true := by
  induction s with
  | nil => simp [nextInvalidChar]
  | cons b rest ih =>
    by_cases hb : isValidChar b
    · simpa [nextInvalidChar, hb] using ih
    · simp [nextInvalidChar, hb]

theorem nextValidChar_drop_pos (s : List Nat) (h : nextInvalidChar s < s.length) :
    0 < nextValidChar (s.drop (nextInvalidChar s)) := by
  induction s with
  | nil => simp [nextInvalidChar] at h
  | cons b rest ih =>
    by_cases hb : isValidChar b
    · have h' : nextInvalidChar rest < rest.length := by
        simp [nextInvalidChar, hb] at h; omega
      simpa [nextInvalidChar, hb] using ih h'
    · simp [nextInvalidChar, hb, nextValidChar]

theorem drop_ne_nil_of_lt {s : List Nat} {i : Nat} (h : i < s.length) :
    s.drop i ≠ [] := by
  intro hnil
  have := congrArg List.length hnil
  simp [List.length_drop] at this
  omega

theorem take_ne_nil_of_pos {l : List Nat} {j : Nat} (hl : l ≠ []) (hj : 0 < j) :
    l.take j ≠ [] := by
  cases l with
  | nil => exact absurd rfl hl
  | cons x xs => cases j with
    | zero => omega
    | succ j' => simp

/-! ### Fuel independence for the encodeName loop -/

theorem encodeNameGo_nil (fuel : Nat) : encodeNameGo fuel [] = [] := by
  cases fuel <;> simp [encodeNameGo, nextInvalidChar]

theorem encodeNameGo_no_invalid {s : List Nat} (h : nextInvalidChar s = s.length)
    (fuel : Nat) : encodeNameGo fuel s = s := by
  cases fuel with
  | zero => rfl
  | succ f => simp [encodeNameGo, h]

theorem encodeNameGo_fuel_eq : ∀ (f1 : Nat) (f2 : Nat) (s : List Nat),
    s.length ≤ f1 → s.length ≤ f2 → encodeNameGo f1 s = encodeNameGo f2 s := by
  intro f1
  induction f1 with
  | zero =>
    intro f2 s h1 _
    have hs : s = [] := List.eq_nil_of_length_eq_zero (Nat.le_zero.mp h1)
    subst hs
    simp [encodeNameGo_nil]
  | succ f ih =>
    intro f2 s h1 h2
    cases s with
    | nil => simp [encodeNameGo_nil]
    | cons b rest =>
      cases f2 with
      | zero => simp at h2
      | succ f2' =>
        by_cases hi : nextInvalidChar (b :: rest) < (b :: rest).length
        · have hj : 0 < nextValidChar ((b :: rest).drop (nextInvalidChar (b :: rest))) :=
            nextValidChar_drop_pos _ hi
          have hlen : ((b :: rest).drop (nextInvalidChar (b :: rest)
              + nextValidChar ((b :: rest).drop (nextInvalidChar (b :: rest))))).length
              ≤ f ∧
              ((b :: rest).drop (nextInvalidChar (b :: rest)
              + nextValidChar ((b :: rest).drop (nextInvalidChar (b :: rest))))).length
              ≤ f2' := by
            simp only [List.length_cons] at h1 h2 hi
            constructor <;> (simp only [List.length_drop, List.length_cons]; omega)
          simp only [encodeNameGo, if_pos hi]
          rw [ih f2' _ hlen.1 hlen.2]
        · simp only [encodeNameGo, if_neg hi]

theorem encodeNameGo_fuel {s : List Nat} {fuel : Nat} (h : s.length ≤ fuel) :
    encodeNameGo fuel s = encSeg s :=
  encodeNameGo_fuel_eq fuel s.length s h le_rfl

/-! ### Claim theorems: test vectors, identity on safe input, run safety -/

/-- C4: the name codec maps the spec's concrete test vectors as stated:
`"&2[foo]" ↦ "&-2[foo]"`, `"foo&" ↦ "foo&-"`, `"A./B" ↦ "A&AC4ALw-B"`,
and `"Hello world" ↦ "Hello world"`, where the encoded segment is the
output of `encodeName` minus the parent-path-plus-`.` prefix. -/
theorem encode_test_vectors :
    encSeg (byteStr "&2[foo]") = byteStr "&-2[foo]" ∧
    encSeg (byteStr "foo&") = byteStr "foo&-" ∧
    encSeg (byteStr "A./B") = byteStr "A&AC4ALw-B" ∧
    encSeg (byteStr "Hello world") = byteStr "Hello world" := by
  refine ⟨by decide, by decide, by decide, by decide⟩

/-- C6: on a name made only of safe characters (printable ASCII except
`.`, `/`, `&`), including the empty name, the codec is the identity:
`encodeName` returns exactly the parent path, a `.`, and the name. -/
theorem encSeg_identity_on_safe (path name : List Nat)
    (h : ∀ b ∈ name, isValidChar b = true) :
    encodeName path name = path ++ 46 :: name ∧ encSeg name = name := by
  have hseg : encSeg name = name :=
    encodeNameGo_no_invalid (nextInvalidChar_eq_length name h) name.length
  exact ⟨by simp [encodeName, hseg], hseg⟩

theorem encSeg_identity_on_safe_witness :
    encodeName (byteStr "md/") (byteStr "Hi") = byteStr "md/" ++ 46 :: byteStr "Hi" ∧
    encSeg (byteStr "Hi") = byteStr "Hi" :=
  encSeg_identity_on_safe (byteStr "md/") (byteStr "Hi") (by decide)

/-- C10: `encodeName` is total and `encode` (which reads `s[0]`
unconditionally) is only ever invoked on non-empty runs: whenever the scan
position `i = nextInvalidChar` is in range, the run length
`j = nextValidChar` of the remaining suffix is at least 1, so the slice
passed to `encode` is non-empty; and the loop terminates within
`name.length` iterations (any fuel of at least the length computes the
same segment). -/
theorem encode_run_nonempty (s : List Nat) (h : nextInvalidChar s < s.length) :
    0 < nextValidChar (s.drop (nextInvalidChar s)) ∧
    (s.drop (nextInvalidChar s)).take (nextValidChar (s.drop (nextInvalidChar s))) ≠ [] ∧
    (∀ fuel, s.length ≤ fuel → encodeNameGo fuel s = encSeg s) := by
  have hj := nextValidChar_drop_pos s h
  exact ⟨hj, take_ne_nil_of_pos (drop_ne_nil_of_lt h) hj,
    fun _ hf => encodeNameGo_fuel hf⟩

theorem segWFAux_append_safe {l : List Nat} (r : List Nat)
    (h : ∀ b ∈ l, isValidChar b = true) :
    segWFAux .plain (l ++ r) = segWFAux .plain r := by
  induction l with
  | nil => simp
  | cons b rest ih =>
    have hb : isValidChar b = true := h b (by simp)
    have hb38 : b ≠ 38 := by
      intro hEq; subst hEq; simp [isValidChar] at hb
    simp [segWFAux, if_neg hb38, hb, ih (fun x hx => h x (by simp [hx]))]

theorem segWFAux_inEsc_append {bs : List Nat} (r : List Nat)
    (h : ∀ x ∈ bs, isB64 x = true) :
    segWFAux .inEsc (bs ++ 45 :: r) = segWFAux .plain r := by
  induction bs with
  | nil => simp [segWFAux]
  | cons y bs' ih =>
    have hy : isB64 y = true := h y (by simp)
    have hy45 : y ≠ 45 := by
      intro hEq; subst hEq; simp [isB64] at hy
    simp [segWFAux, if_neg hy45, hy, ih (fun x hx => h x (by simp [hx]))]

theorem segWFAux_escape {bs : List Nat} (r : List Nat) (hne : bs ≠ [])
    (h : ∀ x ∈ bs, isB64 x = true) :
    segWFAux .plain (38 :: (bs ++ 45 :: r)) = segWFAux .plain r := by
  cases bs with
  | nil => exact absurd rfl hne
  | cons x bs' =>
    have hx : isB64 x = true := h x (by simp)
    have hx45 : x ≠ 45 := by
      intro hEq; subst hEq; simp [isB64] at hx
    have hrest : ∀ y ∈ bs', isB64 y = true :=
      fun y hy => h y (List.mem_cons_of_mem _ hy)
    calc segWFAux .plain (38 :: (x :: bs' ++ 45 :: r))
        = segWFAux .inEsc (bs' ++ 45 :: r) := by
          simp [segWFAux, if_neg hx45, hx]
      _ = segWFAux .plain r := segWFAux_inEsc_append r hrest

theorem segWFAux_amp_literal (r : List Nat) :
    segWFAux .plain (38 :: 45 :: r) = segWFAux .plain r := by
  simp [segWFAux]

/-! ### The escape bodies built by `encodeSequence` are base64 material -/

theorem alph_isB64 : ∀ i, i < 64 → isB64 (alph i) = true := by decide

theorem b64NoPad_isB64 : ∀ bs : List Nat, (∀ x ∈ bs, x < 256) →
    ∀ y ∈ b64NoPad bs, isB64 y = true
  | [], _, y, hy => by simp [b64NoPad] at hy
  | [a], h, y, hy => by
    have ha : a < 256 := h a (by simp)
    simp [b64NoPad] at hy
    rcases hy with rfl | rfl <;> exact alph_isB64 _ (by omega)
  | [a, b], h, y, hy => by
    have ha : a < 256 := h a (by simp)
    have hb : b < 256 := h b (by simp)
    simp [b64NoPad] at hy
    rcases hy with rfl | rfl | rfl <;> exact alph_isB64 _ (by omega)
  | a :: b :: c :: rest, h, y, hy => by
    have ha : a < 256 := h a (by simp)
    have hb : b < 256 := h b (by simp)
    have hc : c < 256 := h c (by simp)
    simp only [b64NoPad, List.mem_cons] at hy
    rcases hy with rfl | rfl | rfl | rfl | hy
    · exact alph_isB64 _ (by omega)
    · exact alph_isB64 _ (by omega)
    · exact alph_isB64 _ (by omega)
    · exact alph_isB64 _ (by omega)
    · exact b64NoPad_isB64 rest (fun x hx => h x (by simp [hx])) y hy

theorem b64NoPad_ne_nil : ∀ {bs : List Nat}, bs ≠ [] → b64NoPad bs ≠ []
  | [], h => absurd rfl h
  | [_], _ => by simp [b64NoPad]
  | [_, _], _ => by simp [b64NoPad]
  | _ :: _ :: _ :: _, _ => by simp [b64NoPad]

theorem utf16EncodeRune_lt (r : Nat) : ∀ u ∈ utf16EncodeRune r, u < 65536 := by
  intro u hu
  unfold utf16EncodeRune at hu
  split_ifs at hu <;> simp at hu <;> omega

theorem utf16Encode_lt (rs : List Nat) : ∀ u ∈ utf16Encode rs, u < 65536 := by
  induction rs with
  | nil => simp [utf16Encode]
  | cons r rest ih =>
    intro u hu
    simp only [utf16Encode, List.mem_append] at hu
    rcases hu with hu | hu
    · exact utf16EncodeRune_lt r u hu
    · exact ih u hu

theorem utf16beBytes_lt {us : List Nat} (h : ∀ u ∈ us, u < 65536) :
    ∀ x ∈ utf16beBytes us, x < 256 := by
  induction us with
  | nil => simp [utf16beBytes]
  | cons u rest ih =>
    intro x hx
    have hu : u < 65536 := h u (by simp)
    simp only [utf16beBytes, List.mem_cons] at hx
    rcases hx with rfl | rfl | hx
    · omega
    · omega
    · exact ih (fun v hv => h v (by simp [hv])) x hx

theorem utf16EncodeRune_ne_nil (r : Nat) : utf16EncodeRune r ≠ [] := by
  unfold utf16EncodeRune
  split_ifs <;> simp

theorem utf16Encode_ne_nil {rs : List Nat} (h : rs ≠ []) :
    utf16Encode rs ≠ [] := by
  cases rs with
  | nil => exact absurd rfl h
  | cons r rest =>
    simp only [utf16Encode]
    intro hEq
    exact utf16EncodeRune_ne_nil r (List.append_eq_nil.mp hEq).1

theorem utf16beBytes_ne_nil {us : List Nat} (h : us ≠ []) :
    utf16beBytes us ≠ [] := by
  cases us with
  | nil => exact absurd rfl h
  | cons u rest => simp [utf16beBytes]

theorem utf8Decode_cons_ne_nil (b : Nat) (rest : List Nat) :
    utf8Decode (b :: rest) ≠ [] := by
  simp [utf8Decode, utf8DecodeGo]

theorem encodeSequence_body_isB64 (s : List Nat) :
    ∀ y ∈ b64NoPad (utf16beBytes (utf16Encode (utf8Decode s))),
      isB64 y = true :=
  b64NoPad_isB64 _ (utf16beBytes_lt (utf16Encode_lt _))

theorem encodeSequence_body_ne_nil {s : List Nat} (h : s ≠ []) :
    b64NoPad (utf16beBytes (utf16Encode (utf8Decode s))) ≠ [] := by
  cases s with
  | nil => exact absurd rfl h
  | cons b rest =>
    exact b64NoPad_ne_nil (utf16beBytes_ne_nil
      (utf16Encode_ne_nil (utf8Decode_cons_ne_nil b rest)))

theorem segWFAux_encodeSequence {s : List Nat} (r : List Nat) (h : s ≠ []) :
    segWFAux .plain (encodeSequence s ++ r) = segWFAux .plain r := by
  have : encodeSequence s ++ r
      = 38 :: (b64NoPad (utf16beBytes (utf16Encode (utf8Decode s))) ++ 45 :: r) := by
    simp [encodeSequence]
  rw [this]
  exact segWFAux_escape r (encodeSequence_body_ne_nil h)
    (encodeSequence_body_isB64 s)

theorem segWFAux_encodeGo (fuel : Nat) :
    ∀ (s r : List Nat), segWFAux .plain (encodeGo fuel s ++ r) = segWFAux .plain r := by
  induction fuel with
  | zero => intro s r; simp [encodeGo]
  | succ fuel ih =>
    intro s r
    cases s with
    | nil => simp [encodeGo]
    | cons b rest =>
      by_cases hb : b = 38
      · subst hb
        by_cases hrest : rest = []
        · subst hrest
          simpa [encodeGo] using segWFAux_amp_literal r
        · have : encodeGo (fuel + 1) (38 :: rest) ++ r
              = 38 :: 45 :: (encodeGo fuel rest ++ r) := by
            simp [encodeGo, hrest]
          rw [this, segWFAux_amp_literal, ih]
      · by_cases hidx : (b :: rest).findIdx (fun x => x = 38) < rest.length + 1
        · have hpos : 0 < (b :: rest).findIdx (fun x => x = 38) := by
            simp [List.findIdx_cons, hb]
          have htake : (b :: rest).take ((b :: rest).findIdx (fun x => x = 38)) ≠ [] :=
            take_ne_nil_of_pos (by simp) hpos
          have heq : encodeGo (fuel + 1) (b :: rest) ++ r
              = encodeSequence ((b :: rest).take ((b :: rest).findIdx (fun x => x = 38)))
                ++ (encodeGo fuel ((b :: rest).drop ((b :: rest).findIdx (fun x => x = 38))) ++ r) := by
            simp [encodeGo, hb, hidx]
          rw [heq, segWFAux_encodeSequence _ htake, ih]
        · have heq : encodeGo (fuel + 1) (b :: rest) ++ r
              = encodeSequence (b :: rest) ++ r := by
            simp [encodeGo, hb, hidx]
          rw [heq, segWFAux_encodeSequence _ (by simp)]

theorem all_valid_of_nextInvalidChar_eq : ∀ {s : List Nat},
    nextInvalidChar s = s.length → ∀ b ∈ s, isValidChar b = true := by
  intro s
  induction s with
  | nil => simp
  | cons b rest ih =>
    intro h x hx
    by_cases hb : isValidChar b
    · simp only [nextInvalidChar, if_pos hb, List.length_cons] at h
      rcases List.mem_cons.mp hx with rfl | hx'
      · exact hb
      · exact ih (by omega) x hx'
    · simp [nextInvalidChar, hb] at h

theorem segWFAux_encodeNameGo (fuel : Nat) :
    ∀ (name r : List Nat), name.length ≤ fuel →
      segWFAux .plain (encodeNameGo fuel name ++ r) = segWFAux .plain r := by
  induction fuel with
  | zero =>
    intro name r h
    have : name = [] := List.eq_nil_of_length_eq_zero (Nat.le_zero.mp h)
    subst this
    simp [encodeNameGo]
  | succ fuel ih =>
    intro name r h
    by_cases hi : nextInvalidChar name < name.length
    · have hj : 0 < nextValidChar (name.drop (nextInvalidChar name)) :=
        nextValidChar_drop_pos name hi
      have hrec : (name.drop (nextInvalidChar name
          + nextValidChar (name.drop (nextInvalidChar name)))).length ≤ fuel := by
        simp only [List.length_drop]; omega
      have : encodeNameGo (fuel + 1) name ++ r
          = name.take (nextInvalidChar name)
            ++ (encode ((name.drop (nextInvalidChar name)).take
                  (nextValidChar (name.drop (nextInvalidChar name))))
            ++ (encodeNameGo fuel (name.drop (nextInvalidChar name
                  + nextValidChar (name.drop (nextInvalidChar name)))) ++ r)) := by
        simp [encodeNameGo, hi]
      rw [this, segWFAux_append_safe _ (nextInvalidChar_valid_take name),
        encode, segWFAux_encodeGo, ih _ _ hrec]
    · have hall : ∀ b ∈ name, isValidChar b = true :=
        all_valid_of_nextInvalidChar_eq
          (Nat.le_antisymm (nextInvalidChar_le_length name) (Nat.le_of_not_lt hi))
      simp only [encodeNameGo, if_neg hi]
      exact segWFAux_append_safe r hall

theorem segWFAux_no47 : ∀ (l : List Nat) (st : SegSt),
    segWFAux st l = true → 47 ∉ l := by
  intro l
  induction l with
  | nil => simp
  | cons b rest ih =>
    intro st h hmem
    rcases List.mem_cons.mp hmem with rfl | hmem'
    · cases st with
      | plain =>
        simp only [segWFAux] at h
        rw [if_neg (by omega)] at h
        simp [isValidChar] at h
      | afterAmp =>
        simp only [segWFAux] at h
        rw [if_neg (by omega)] at h
        simp [isB64] at h
      | inEsc =>
        simp only [segWFAux] at h
        rw [if_neg (by omega)] at h
        simp [isB64] at h
    · cases st with
      | plain =>
        simp only [segWFAux] at h
        by_cases hb : b = 38
        · rw [if_pos hb] at h
          exact ih _ h hmem'
        · rw [if_neg hb, Bool.and_eq_true] at h
          exact ih _ h.2 hmem'
      | afterAmp =>
        simp only [segWFAux] at h
        by_cases hb : b = 45
        · rw [if_pos hb] at h
          exact ih _ h hmem'
        · rw [if_neg hb, Bool.and_eq_true] at h
          exact ih _ h.2 hmem'
      | inEsc =>
        simp only [segWFAux] at h
        by_cases hb : b = 45
        · rw [if_pos hb] at h
          exact ih _ h hmem'
        · rw [if_neg hb, Bool.and_eq_true] at h
          exact ih _ h.2 hmem'

/-- C5: for every input, the encoded segment is a sequence of safe
characters (printable ASCII except `.`, `/`, `&`) and well-formed escapes
(`&` + base64 characters + `-`, or the literal `&-`); in particular it
never contains a raw `/` (byte 47), and `&` (38) and `.` (46) occur only
as part of such escapes. -/
theorem encSeg_wellformed (name : List Nat) :
    segWF (encSeg name) = true ∧ 47 ∉ encSeg name := by
  have h : segWF (encSeg name) = true := by
    have := segWFAux_encodeNameGo name.length name [] le_rfl
    simpa [segWF, segWFAux] using this
  exact ⟨h, segWFAux_no47 _ _ h⟩

theorem encode_run_nonempty_witness :
    0 < nextValidChar (([38] : List Nat).drop (nextInvalidChar [38])) ∧
    (([38] : List Nat).drop (nextInvalidChar [38])).take
      (nextValidChar (([38] : List Nat).drop (nextInvalidChar [38]))) ≠ [] ∧
    (∀ fuel, ([38] : List Nat).length ≤ fuel →
      encodeNameGo fuel [38] = encSeg [38]) :=
  encode_run_nonempty [38] (by decide)

/-! ### Facts about `decodeRune` -/

theorem byteAt_nil (i : Nat) : byteAt [] i = 0x100 := by simp [byteAt]

theorem byteAt_cons_zero (x : Nat) (l : List Nat) : byteAt (x :: l) 0 = x := by
  simp [byteAt]

theorem byteAt_cons_succ (x : Nat) (l : List Nat) (i : Nat) :
    byteAt (x :: l) (i + 1) = byteAt l i := by
  simp [byteAt]

theorem lt_length_of_byteAt_le {l : List Nat} {i : Nat}
    (h : byteAt l i ≤ 0xBF) : i < l.length := by
  by_contra hc
  have hnil : l.drop i = [] := List.drop_eq_nil_of_le (Nat.le_of_not_lt hc)
  rw [byteAt, hnil] at h
  simp at h

theorem byteAt_cons_one (x : Nat) (l : List Nat) : byteAt (x :: l) 1 = byteAt l 0 := by
  simp [byteAt]

theorem byteAt_cons_two (x : Nat) (l : List Nat) : byteAt (x :: l) 2 = byteAt l 1 := by
  simp [byteAt]

set_option maxHeartbeats 800000 in
theorem dr4_facts (b0 c1 c2 c3 : Nat) :
    1 ≤ (dr4 b0 c1 c2 c3).2 ∧ (dr4 b0 c1 c2 c3).2 ≤ 4 ∧
    isScalar (dr4 b0 c1 c2 c3).1 ∧
    ((dr4 b0 c1 c2 c3).2 = 2 → c1 ≤ 0xBF) ∧
    ((dr4 b0 c1 c2 c3).2 = 3 → c2 ≤ 0xBF) ∧
    ((dr4 b0 c1 c2 c3).2 = 4 → c3 ≤ 0xBF) := by
  unfold dr4 isScalar
  split_ifs <;> dsimp only <;> omega

theorem decodeRune_size_pos : ∀ {s : List Nat}, s ≠ [] →
    1 ≤ (decodeRune s).2 := by
  intro s hs
  match s with
  | [] => exact absurd rfl hs
  | b0 :: rest => exact (dr4_facts b0 (byteAt rest 0) (byteAt rest 1) (byteAt rest 2)).1

theorem decodeRune_size_le : ∀ (s : List Nat), (decodeRune s).2 ≤ s.length := by
  intro s
  match s with
  | [] => simp [decodeRune]
  | b0 :: rest =>
    obtain ⟨f1, f4, -, e2, e3, e4⟩ :=
      dr4_facts b0 (byteAt rest 0) (byteAt rest 1) (byteAt rest 2)
    show (dr4 b0 (byteAt rest 0) (byteAt rest 1) (byteAt rest 2)).2
      ≤ rest.length + 1
    by_cases h2 : (dr4 b0 (byteAt rest 0) (byteAt rest 1) (byteAt rest 2)).2 = 2
    · have := lt_length_of_byteAt_le (e2 h2); omega
    · by_cases h3 : (dr4 b0 (byteAt rest 0) (byteAt rest 1) (byteAt rest 2)).2 = 3
      · have := lt_length_of_byteAt_le (e3 h3); omega
      · by_cases h4 : (dr4 b0 (byteAt rest 0) (byteAt rest 1) (byteAt rest 2)).2 = 4
        · have := lt_length_of_byteAt_le (e4 h4); omega
        · omega

theorem decodeRune_scalar : ∀ {s : List Nat}, s ≠ [] →
    isScalar (decodeRune s).1 := by
  intro s hs
  match s with
  | [] => exact absurd rfl hs
  | b0 :: rest =>
    exact (dr4_facts b0 (byteAt rest 0) (byteAt rest 1) (byteAt rest 2)).2.2.1

theorem dr4_bad_c1 {c1 c1' : Nat} (h : c1 < 0x80 ∨ 0xBF < c1)
    (h' : c1' < 0x80 ∨ 0xBF < c1') (b0 c2 c3 c2' c3' : Nat) :
    dr4 b0 c1 c2 c3 = dr4 b0 c1' c2' c3' := by
  unfold dr4
  by_cases h1 : b0 < 0x80
  · rw [if_pos h1, if_pos h1]
  · rw [if_neg h1, if_neg h1]
    by_cases hb2 : b0 < 0xC2
    · rw [if_pos hb2, if_pos hb2]
    · rw [if_neg hb2, if_neg hb2]
      by_cases hb3 : b0 < 0xE0
      · rw [if_pos hb3, if_pos hb3,
          if_neg (by omega : ¬(0x80 ≤ c1 ∧ c1 ≤ 0xBF)),
          if_neg (by omega : ¬(0x80 ≤ c1' ∧ c1' ≤ 0xBF))]
      · rw [if_neg hb3, if_neg hb3]
        have hlo3 : 0x80 ≤ (if b0 = 0xE0 then 0xA0 else 0x80) := by
          split_ifs <;> omega
        have hhi3 : (if b0 = 0xED then 0x9F else 0xBF) ≤ 0xBF := by
          split_ifs <;> omega
        have hlo4 : 0x80 ≤ (if b0 = 0xF0 then 0x90 else 0x80) := by
          split_ifs <;> omega
        have hhi4 : (if b0 = 0xF4 then 0x8F else 0xBF) ≤ 0xBF := by
          split_ifs <;> omega
        by_cases hb4 : b0 < 0xF0
        · rw [if_pos hb4, if_pos hb4,
            if_neg (by omega :
              ¬((if b0 = 0xE0 then 0xA0 else 0x80) ≤ c1 ∧
                c1 ≤ (if b0 = 0xED then 0x9F else 0xBF))),
            if_neg (by omega :
              ¬((if b0 = 0xE0 then 0xA0 else 0x80) ≤ c1' ∧
                c1' ≤ (if b0 = 0xED then 0x9F else 0xBF)))]
        · rw [if_neg hb4, if_neg hb4]
          by_cases hb5 : b0 < 0xF5
          · rw [if_pos hb5, if_pos hb5,
              if_neg (by omega :
                ¬((if b0 = 0xF0 then 0x90 else 0x80) ≤ c1 ∧
                  c1 ≤ (if b0 = 0xF4 then 0x8F else 0xBF))),
              if_neg (by omega :
                ¬((if b0 = 0xF0 then 0x90 else 0x80) ≤ c1' ∧
                  c1' ≤ (if b0 = 0xF4 then 0x8F else 0xBF)))]
          · rw [if_neg hb5, if_neg hb5]

theorem dr4_bad_c2 {c2 c2' : Nat} (h : c2 < 0x80 ∨ 0xBF < c2)
    (h' : c2' < 0x80 ∨ 0xBF < c2') (b0 c1 c3 c3' : Nat) :
    dr4 b0 c1 c2 c3 = dr4 b0 c1 c2' c3' := by
  unfold dr4
  by_cases h1 : b0 < 0x80
  · rw [if_pos h1, if_pos h1]
  · rw [if_neg h1, if_neg h1]
    by_cases hb2 : b0 < 0xC2
    · rw [if_pos hb2, if_pos hb2]
    · rw [if_neg hb2, if_neg hb2]
      by_cases hb3 : b0 < 0xE0
      · rw [if_pos hb3, if_pos hb3]
      · rw [if_neg hb3, if_neg hb3]
        by_cases hb4 : b0 < 0xF0
        · rw [if_pos hb4, if_pos hb4]
          by_cases hc1 : (if b0 = 0xE0 then 0xA0 else 0x80) ≤ c1 ∧
              c1 ≤ (if b0 = 0xED then 0x9F else 0xBF)
          · rw [if_pos hc1, if_pos hc1,
              if_neg (by omega : ¬(0x80 ≤ c2 ∧ c2 ≤ 0xBF)),
              if_neg (by omega : ¬(0x80 ≤ c2' ∧ c2' ≤ 0xBF))]
          · rw [if_neg hc1, if_neg hc1]
        · rw [if_neg hb4, if_neg hb4]
          by_cases hb5 : b0 < 0xF5
          · rw [if_pos hb5, if_pos hb5]
            by_cases hc1 : (if b0 = 0xF0 then 0x90 else 0x80) ≤ c1 ∧
                c1 ≤ (if b0 = 0xF4 then 0x8F else 0xBF)
            · rw [if_pos hc1, if_pos hc1,
                if_neg (by omega : ¬(0x80 ≤ c2 ∧ c2 ≤ 0xBF)),
                if_neg (by omega : ¬(0x80 ≤ c2' ∧ c2' ≤ 0xBF))]
            · rw [if_neg hc1, if_neg hc1]
          · rw [if_neg hb5, if_neg hb5]

theorem dr4_bad_c3 {c3 c3' : Nat} (h : c3 < 0x80 ∨ 0xBF < c3)
    (h' : c3' < 0x80 ∨ 0xBF < c3') (b0 c1 c2 : Nat) :
    dr4 b0 c1 c2 c3 = dr4 b0 c1 c2 c3' := by
  unfold dr4
  by_cases h1 : b0 < 0x80
  · rw [if_pos h1, if_pos h1]
  · rw [if_neg h1, if_neg h1]
    by_cases hb2 : b0 < 0xC2
    · rw [if_pos hb2, if_pos hb2]
    · rw [if_neg hb2, if_neg hb2]
      by_cases hb3 : b0 < 0xE0
      · rw [if_pos hb3, if_pos hb3]
      · rw [if_neg hb3, if_neg hb3]
        by_cases hb4 : b0 < 0xF0
        · rw [if_pos hb4, if_pos hb4]
        · rw [if_neg hb4, if_neg hb4]
          by_cases hb5 : b0 < 0xF5
          · rw [if_pos hb5, if_pos hb5]
            by_cases hc1 : (if b0 = 0xF0 then 0x90 else 0x80) ≤ c1 ∧
                c1 ≤ (if b0 = 0xF4 then 0x8F else 0xBF)
            · rw [if_pos hc1, if_pos hc1]
              by_cases hc2 : 0x80 ≤ c2 ∧ c2 ≤ 0xBF
              · rw [if_pos hc2, if_pos hc2,
                  if_neg (by omega : ¬(0x80 ≤ c3 ∧ c3 ≤ 0xBF)),
                  if_neg (by omega : ¬(0x80 ≤ c3' ∧ c3' ≤ 0xBF))]
              · rw [if_neg hc2, if_neg hc2]
            · rw [if_neg hc1, if_neg hc1]
          · rw [if_neg hb5, if_neg hb5]

theorem decodeRune_append : ∀ {a b : List Nat}, a ≠ [] →
    (b = [] ∨ ∃ hd t, b = hd :: t ∧ hd < 0x80) →
    decodeRune (a ++ b) = decodeRune a := by
  intro a b ha hb
  rcases hb with rfl | ⟨hd, tl, rfl, rfl_lt⟩
  · rw [List.append_nil]
  · match a with
    | [] => exact absurd rfl ha
    | [a0] =>
      simp only [List.cons_append, List.nil_append, decodeRune, byteAt_nil,
        byteAt_cons_zero, byteAt_cons_one, byteAt_cons_two]
      exact dr4_bad_c1 (Or.inl rfl_lt) (by omega) a0 _ _ _ _
    | [a0, a1] =>
      simp only [List.cons_append, List.nil_append, decodeRune, byteAt_nil,
        byteAt_cons_zero, byteAt_cons_one, byteAt_cons_two]
      exact dr4_bad_c2 (Or.inl rfl_lt) (by omega) a0 a1 _ _
    | [a0, a1, a2] =>
      simp only [List.cons_append, List.nil_append, decodeRune, byteAt_nil,
        byteAt_cons_zero, byteAt_cons_one, byteAt_cons_two]
      exact dr4_bad_c3 (Or.inl rfl_lt) (by omega) a0 a1 a2
    | a0 :: a1 :: a2 :: a3 :: t =>
      simp only [List.cons_append, decodeRune, byteAt_cons_zero,
        byteAt_cons_one, byteAt_cons_two]

/-! ### Facts about `utf8Decode` -/

theorem utf8Decode_nil : utf8Decode [] = [] := rfl

theorem utf8DecodeGo_zero_nil : utf8DecodeGo 0 [] = [] := rfl

theorem utf8DecodeGo_fuel_eq : ∀ (f1 f2 : Nat) (s : List Nat),
    s.length ≤ f1 → s.length ≤ f2 → utf8DecodeGo f1 s = utf8DecodeGo f2 s := by
  intro f1
  induction f1 with
  | zero =>
    intro f2 s h1 _
    have hs : s = [] := List.eq_nil_of_length_eq_zero (Nat.le_zero.mp h1)
    subst hs
    cases f2 <;> rfl
  | succ f ih =>
    intro f2 s h1 h2
    cases s with
    | nil => cases f2 <;> rfl
    | cons b rest =>
      cases f2 with
      | zero => simp at h2
      | succ f2' =>
        simp only [utf8DecodeGo]
        congr 1
        have hpos : 1 ≤ (decodeRune (b :: rest)).2 :=
          decodeRune_size_pos (by simp)
        apply ih
        · simp only [List.length_drop, List.length_cons] at *
          omega
        · simp only [List.length_drop, List.length_cons] at *
          omega

theorem utf8Decode_cons (b : Nat) (rest : List Nat) :
    utf8Decode (b :: rest) = (decodeRune (b :: rest)).1
      :: utf8Decode ((b :: rest).drop (decodeRune (b :: rest)).2) := by
  show utf8DecodeGo (b :: rest).length (b :: rest) = _
  have hlen : (b :: rest).length = rest.length + 1 := by simp
  rw [hlen]
  simp only [utf8DecodeGo]
  congr 1
  apply utf8DecodeGo_fuel_eq
  · have hpos : 1 ≤ (decodeRune (b :: rest)).2 := decodeRune_size_pos (by simp)
    simp only [List.length_drop, List.length_cons]
    omega
  · exact le_rfl

theorem utf8Decode_cons_ascii {b : Nat} (hb : b < 0x80) (rest : List Nat) :
    utf8Decode (b :: rest) = b :: utf8Decode rest := by
  rw [utf8Decode_cons]
  have hdr : decodeRune (b :: rest) = (b, 1) := by
    simp only [decodeRune, dr4, if_pos hb]
  rw [hdr]
  simp

theorem utf8Decode_append_ascii : ∀ {l : List Nat}, (∀ x ∈ l, x < 0x80) →
    ∀ (b : List Nat), utf8Decode (l ++ b) = l ++ utf8Decode b := by
  intro l
  induction l with
  | nil => simp
  | cons x xs ih =>
    intro h b
    rw [List.cons_append, utf8Decode_cons_ascii (h x (by simp)),
      ih (fun y hy => h y (by simp [hy])) b, List.cons_append]

theorem utf8Decode_ascii {l : List Nat} (h : ∀ x ∈ l, x < 0x80) :
    utf8Decode l = l := by
  have := utf8Decode_append_ascii h []
  simpa [utf8Decode_nil] using this

theorem utf8Decode_append (b : List Nat)
    (hb : b = [] ∨ ∃ hd t, b = hd :: t ∧ hd < 0x80) :
    ∀ (a : List Nat), utf8Decode (a ++ b) = utf8Decode a ++ utf8Decode b := by
  suffices H : ∀ (n : Nat) (a : List Nat), a.length ≤ n →
      utf8Decode (a ++ b) = utf8Decode a ++ utf8Decode b from
    fun a => H a.length a le_rfl
  intro n
  induction n with
  | zero =>
    intro a h
    have hs : a = [] := List.eq_nil_of_length_eq_zero (Nat.le_zero.mp h)
    subst hs
    simp [utf8Decode, utf8DecodeGo_zero_nil]
  | succ n ih =>
    intro a hlen
    cases a with
    | nil => simp [utf8Decode, utf8DecodeGo_zero_nil]
    | cons x xs =>
      rw [List.cons_append, utf8Decode_cons, utf8Decode_cons x xs]
      have hdr : decodeRune (x :: (xs ++ b)) = decodeRune (x :: xs) := by
        rw [← List.cons_append]
        exact decodeRune_append (by simp) hb
      rw [hdr]
      have hsz := decodeRune_size_le (x :: xs)
      have hpos : 1 ≤ (decodeRune (x :: xs)).2 := decodeRune_size_pos (by simp)
      have hdrop : (x :: (xs ++ b)).drop (decodeRune (x :: xs)).2
          = ((x :: xs).drop (decodeRune (x :: xs)).2) ++ b := by
        rw [← List.cons_append]
        exact List.drop_append_of_le_length hsz
      rw [hdrop, List.cons_append]
      congr 1
      apply ih
      simp only [List.length_drop, List.length_cons] at *
      omega

theorem utf8Decode_scalar : ∀ (s : List Nat), ∀ r ∈ utf8Decode s, isScalar r := by
  suffices H : ∀ (n : Nat) (s : List Nat), s.length ≤ n →
      ∀ r ∈ utf8Decode s, isScalar r from
    fun s => H s.length s le_rfl
  intro n
  induction n with
  | zero =>
    intro s h
    have hs : s = [] := List.eq_nil_of_length_eq_zero (Nat.le_zero.mp h)
    subst hs
    simp [utf8Decode, utf8DecodeGo_zero_nil]
  | succ n ih =>
    intro s hlen r hr
    cases s with
    | nil => simp [utf8Decode, utf8DecodeGo_zero_nil] at hr
    | cons b rest =>
      rw [utf8Decode_cons] at hr
      have hpos : 1 ≤ (decodeRune (b :: rest)).2 := decodeRune_size_pos (by simp)
      rcases List.mem_cons.mp hr with rfl | hr'
      · exact decodeRune_scalar (by simp)
      · apply ih ((b :: rest).drop (decodeRune (b :: rest)).2) _ r hr'
        simp only [List.length_drop, List.length_cons] at *
        omega

/-! ### The decoder inverts each encoding layer -/

theorem alphInv_alph : ∀ i, i < 64 → alphInv (alph i) = i := by decide

theorem b64Decode_b64NoPad : ∀ (bs : List Nat), (∀ x ∈ bs, x < 256) →
    b64Decode (b64NoPad bs) = bs
  | [], _ => rfl
  | [a], h => by
    have ha : a < 256 := h a (by simp)
    simp only [b64NoPad, b64Decode]
    rw [alphInv_alph _ (by omega), alphInv_alph _ (by omega)]
    congr 1
    omega
  | [a, b], h => by
    have ha : a < 256 := h a (by simp)
    have hb : b < 256 := h b (by simp)
    simp only [b64NoPad, b64Decode]
    rw [alphInv_alph _ (by omega), alphInv_alph _ (by omega),
      alphInv_alph _ (by omega)]
    congr 1
    · omega
    · congr 1
      omega
  | a :: b :: c :: rest, h => by
    have ha : a < 256 := h a (by simp)
    have hb : b < 256 := h b (by simp)
    have hc : c < 256 := h c (by simp)
    simp only [b64NoPad, b64Decode]
    rw [alphInv_alph _ (by omega), alphInv_alph _ (by omega),
      alphInv_alph _ (by omega), alphInv_alph _ (by omega),
      b64Decode_b64NoPad rest (fun x hx => h x (by simp [hx]))]
    congr 1
    · omega
    · congr 1
      · omega
      · congr 1
        omega

theorem unpair_utf16beBytes : ∀ (us : List Nat), (∀ u ∈ us, u < 65536) →
    unpair (utf16beBytes us) = us
  | [], _ => rfl
  | u :: rest, h => by
    have hu : u < 65536 := h u (by simp)
    simp only [utf16beBytes, unpair]
    rw [unpair_utf16beBytes rest (fun x hx => h x (by simp [hx]))]
    congr 1
    omega

theorem utf16Decode_cons_nonsur {u : Nat} (h1 : ¬(0xD800 ≤ u ∧ u < 0xDC00))
    (h2 : ¬(0xDC00 ≤ u ∧ u < 0xE000)) (rest : List Nat) :
    utf16Decode (u :: rest) = u :: utf16Decode rest := by
  cases rest <;> simp [utf16Decode, h1, h2]

theorem utf16Decode_pair {u v : Nat} (h1 : 0xD800 ≤ u ∧ u < 0xDC00)
    (h2 : 0xDC00 ≤ v ∧ v < 0xE000) (rest2 : List Nat) :
    utf16Decode (u :: v :: rest2)
      = (0x10000 + (u - 0xD800) * 1024 + (v - 0xDC00)) :: utf16Decode rest2 := by
  simp [utf16Decode, h1, h2]

theorem utf16Decode_utf16Encode : ∀ (rs : List Nat), (∀ r ∈ rs, isScalar r) →
    utf16Decode (utf16Encode rs) = rs := by
  intro rs
  induction rs with
  | nil => intro _; rfl
  | cons r rest ih =>
    intro h
    have hr : isScalar r := h r (by simp)
    have hrest := ih (fun x hx => h x (by simp [hx]))
    simp only [utf16Encode]
    by_cases hlo : r < 0x10000
    · have hq : utf16EncodeRune r = [r] := by
        unfold utf16EncodeRune
        rw [if_pos hlo, if_neg (by unfold isScalar at hr; omega :
          ¬(0xD800 ≤ r ∧ r < 0xE000))]
      rw [hq, List.cons_append, List.nil_append,
        utf16Decode_cons_nonsur (by unfold isScalar at hr; omega)
          (by unfold isScalar at hr; omega), hrest]
    · have hhi : r ≤ 0x10FFFF := by unfold isScalar at hr; omega
      have hq : utf16EncodeRune r
          = [0xD800 + (r - 0x10000) / 1024, 0xDC00 + (r - 0x10000) % 1024] := by
        unfold utf16EncodeRune
        rw [if_neg hlo, if_pos hhi]
      rw [hq, List.cons_append, List.cons_append, List.nil_append,
        @utf16Decode_pair (0xD800 + (r - 0x10000) / 1024)
          (0xDC00 + (r - 0x10000) % 1024) (by omega) (by omega)
          (utf16Encode rest), hrest,
        (by omega : 0x10000 + (0xD800 + (r - 0x10000) / 1024 - 0xD800) * 1024
          + (0xDC00 + (r - 0x10000) % 1024 - 0xDC00) = r)]

/-! ### The segment parser: unfolding and chunk lemmas -/

theorem isValidChar_bounds {b : Nat} (h : isValidChar b = true) :
    0x20 ≤ b ∧ b < 127 := by
  by_cases h1 : b < 0x20 ∨ 127 ≤ b
  · unfold isValidChar at h
    rw [if_pos h1] at h
    simp at h
  · omega

theorem decodeSegGo_nil : ∀ (f : Nat), decodeSegGo f [] = []
  | 0 => rfl
  | _ + 1 => rfl

theorem decodeSegGo_fuel_eq : ∀ (f1 f2 : Nat) (l : List Nat),
    l.length ≤ f1 → l.length ≤ f2 → decodeSegGo f1 l = decodeSegGo f2 l := by
  intro f1
  induction f1 with
  | zero =>
    intro f2 l h1 _
    have hl : l = [] := List.eq_nil_of_length_eq_zero (Nat.le_zero.mp h1)
    subst hl
    cases f2 <;> rfl
  | succ f ih =>
    intro f2 l h1 h2
    cases l with
    | nil => cases f2 <;> rfl
    | cons b rest =>
      cases f2 with
      | zero => simp at h2
      | succ f2' =>
        simp only [List.length_cons] at h1 h2
        by_cases hb : b = 38
        · subst hb
          cases rest with
          | nil => simp [decodeSegGo]
          | cons c rest2 =>
            simp only [List.length_cons] at h1 h2
            by_cases hc : c = 45
            · subst hc
              have hrec := ih f2' rest2 (by omega) (by omega)
              simp [decodeSegGo, hrec]
            · have hrec := ih f2' ((c :: rest2).drop
                  ((c :: rest2).findIdx (fun x => x = 45) + 1))
                (by simp only [List.length_drop, List.length_cons]; omega)
                (by simp only [List.length_drop, List.length_cons]; omega)
              simp only [decodeSegGo, if_true, if_neg hc, hrec]
        · simp only [decodeSegGo, if_neg hb]
          cases rest with
          | nil => simp [decodeSegGo_nil]
          | cons c rest2 =>
            rw [ih f2' (c :: rest2) (by simp at h1 ⊢; omega)
              (by simp at h2 ⊢; omega)]

theorem decodeSeg_nil : decodeSeg [] = [] := rfl

theorem decodeSegGo_cons_lit (f : Nat) {b : Nat} (hb : b ≠ 38)
    (rest : List Nat) : decodeSegGo (f + 1) (b :: rest)
      = b :: decodeSegGo f rest := by
  cases rest <;> simp [decodeSegGo, hb]

theorem decodeSegGo_amp_lit (f : Nat) (rest : List Nat) :
    decodeSegGo (f + 1) (38 :: 45 :: rest) = 38 :: decodeSegGo f rest := by
  simp [decodeSegGo]

theorem decodeSegGo_amp_esc (f : Nat) {c : Nat} (hc : c ≠ 45)
    (rest2 : List Nat) : decodeSegGo (f + 1) (38 :: c :: rest2)
      = utf16Decode (unpair (b64Decode ((c :: rest2).take
          ((c :: rest2).findIdx (fun x => x = 45)))))
        ++ decodeSegGo f ((c :: rest2).drop
          ((c :: rest2).findIdx (fun x => x = 45) + 1)) := by
  simp [decodeSegGo, hc]

theorem decodeSeg_cons_lit {b : Nat} (hb : b ≠ 38) (rest : List Nat) :
    decodeSeg (b :: rest) = b :: decodeSeg rest := by
  show decodeSegGo (rest.length + 1) (b :: rest) = _
  rw [decodeSegGo_cons_lit rest.length hb rest,
    decodeSegGo_fuel_eq rest.length rest.length rest le_rfl le_rfl]
  rfl

theorem decodeSeg_amp_lit (rest : List Nat) :
    decodeSeg (38 :: 45 :: rest) = 38 :: decodeSeg rest := by
  show decodeSegGo (rest.length + 1 + 1) (38 :: 45 :: rest) = _
  rw [decodeSegGo_amp_lit (rest.length + 1) rest,
    decodeSegGo_fuel_eq (rest.length + 1) rest.length rest (by omega) le_rfl]
  rfl

theorem decodeSeg_amp_esc {c : Nat} (hc : c ≠ 45) (rest2 : List Nat) :
    decodeSeg (38 :: c :: rest2)
      = utf16Decode (unpair (b64Decode ((c :: rest2).take
          ((c :: rest2).findIdx (fun x => x = 45)))))
        ++ decodeSeg ((c :: rest2).drop
          ((c :: rest2).findIdx (fun x => x = 45) + 1)) := by
  show decodeSegGo (rest2.length + 1 + 1) (38 :: c :: rest2) = _
  rw [decodeSegGo_amp_esc (rest2.length + 1) hc rest2,
    decodeSegGo_fuel_eq (rest2.length + 1) _ _
      (by simp only [List.length_drop, List.length_cons]; omega) le_rfl]
  rfl

theorem findIdx_append_cons {p : Nat → Bool} : ∀ (l : List Nat) (c : Nat)
    (r : List Nat), (∀ x ∈ l, p x = false) → p c = true →
    (l ++ c :: r).findIdx p = l.length
  | [], c, r, _, hc => by simp [List.findIdx_cons, hc]
  | x :: xs, c, r, h, hc => by
    have hx : p x = false := h x (by simp)
    simp [List.findIdx_cons, hx,
      findIdx_append_cons xs c r (fun y hy => h y (by simp [hy])) hc]

theorem take_append_cons_len : ∀ (l : List Nat) (c : Nat) (r : List Nat),
    (l ++ c :: r).take l.length = l
  | [], _, _ => rfl
  | x :: xs, c, r => by simp [take_append_cons_len xs c r]

theorem drop_append_cons_len : ∀ (l : List Nat) (c : Nat) (r : List Nat),
    (l ++ c :: r).drop (l.length + 1) = r
  | [], _, _ => rfl
  | x :: xs, c, r => by simpa using drop_append_cons_len xs c r

theorem drop_findIdx_cons {p : Nat → Bool} : ∀ (l : List Nat),
    l.findIdx p < l.length →
    ∃ y t, l.drop (l.findIdx p) = y :: t ∧ p y = true
  | [], h => by simp at h
  | b :: rest, h => by
    by_cases hpb : p b = true
    · refine ⟨b, rest, ?_, hpb⟩
      simp [List.findIdx_cons, hpb]
    · have hpb' : p b = false := by
        cases hq : p b
        · rfl
        · exact absurd hq hpb
      have hfi : (b :: rest).findIdx p = rest.findIdx p + 1 := by
        simp [List.findIdx_cons, hpb']
      rw [hfi] at h ⊢
      simp only [List.drop_succ_cons]
      exact drop_findIdx_cons rest (by simp only [List.length_cons] at h; omega)

theorem drop_nextValidChar_cons : ∀ (s : List Nat),
    nextValidChar s < s.length →
    ∃ y t, s.drop (nextValidChar s) = y :: t ∧ isValidChar y = true
  | [], h => by simp [nextValidChar] at h
  | b :: rest, h => by
    by_cases hb : isValidChar b
    · exact ⟨b, rest, by simp [nextValidChar, hb], hb⟩
    · have hfi : nextValidChar (b :: rest) = nextValidChar rest + 1 := by
        simp [nextValidChar, hb]
      rw [hfi] at h ⊢
      simp only [List.drop_succ_cons]
      exact drop_nextValidChar_cons rest (by simp at h; omega)

theorem decodeSeg_append_valid : ∀ {l : List Nat},
    (∀ x ∈ l, isValidChar x = true) → ∀ (r : List Nat),
    decodeSeg (l ++ r) = l ++ decodeSeg r := by
  intro l
  induction l with
  | nil => intro _ r; simp
  | cons x xs ih =>
    intro h r
    have hx := h x (by simp)
    have hx38 : x ≠ 38 := by
      intro e; subst e; simp [isValidChar] at hx
    rw [List.cons_append, decodeSeg_cons_lit hx38,
      ih (fun y hy => h y (by simp [hy])) r, List.cons_append]

theorem decodeSeg_escape {bs : List Nat} (r : List Nat) (hne : bs ≠ [])
    (hb64 : ∀ x ∈ bs, isB64 x = true) :
    decodeSeg (38 :: (bs ++ 45 :: r))
      = utf16Decode (unpair (b64Decode bs)) ++ decodeSeg r := by
  cases bs with
  | nil => exact absurd rfl hne
  | cons c bs' =>
    have hc : isB64 c = true := hb64 c (by simp)
    have hc45 : c ≠ 45 := by
      intro hEq; subst hEq; simp [isB64] at hc
    have hno45 : ∀ x ∈ (c :: bs'), (fun x => decide (x = 45)) x = false := by
      intro x hx
      have hbx := hb64 x hx
      have : x ≠ 45 := by intro e; subst e; simp [isB64] at hbx
      simpa using this
    have hidx : ((c :: bs') ++ 45 :: r).findIdx (fun x => x = 45)
        = (c :: bs').length :=
      findIdx_append_cons (c :: bs') 45 r hno45 (by simp)
    have heq : (38 : Nat) :: ((c :: bs') ++ 45 :: r)
        = 38 :: c :: (bs' ++ 45 :: r) := by simp
    rw [heq, decodeSeg_amp_esc hc45, ← List.cons_append, hidx,
      take_append_cons_len, drop_append_cons_len]

theorem decodeSeg_encodeSequence {s : List Nat} (hne : s ≠ [])
    (Y : List Nat) : decodeSeg (encodeSequence s ++ Y)
      = utf8Decode s ++ decodeSeg Y := by
  have hshape : encodeSequence s ++ Y
      = 38 :: (b64NoPad (utf16beBytes (utf16Encode (utf8Decode s)))
          ++ 45 :: Y) := by
    simp [encodeSequence]
  rw [hshape, decodeSeg_escape Y (encodeSequence_body_ne_nil hne)
    (encodeSequence_body_isB64 s)]
  rw [b64Decode_b64NoPad _ (utf16beBytes_lt (utf16Encode_lt _)),
    unpair_utf16beBytes _ (utf16Encode_lt _),
    utf16Decode_utf16Encode _ (utf8Decode_scalar s)]

theorem utf8Decode_split_at_findIdx {s : List Nat}
    (hidx : s.findIdx (fun x => x = 38) < s.length) :
    utf8Decode s = utf8Decode (s.take (s.findIdx (fun x => x = 38)))
      ++ utf8Decode (s.drop (s.findIdx (fun x => x = 38))) := by
  obtain ⟨y, t, hdt, hpy⟩ := drop_findIdx_cons s hidx
  have hy : y = 38 := of_decide_eq_true hpy
  subst hy
  have := utf8Decode_append (s.drop (s.findIdx (fun x => x = 38)))
    (Or.inr ⟨38, t, hdt, by omega⟩) (s.take (s.findIdx (fun x => x = 38)))
  rwa [List.take_append_drop] at this

theorem decodeSeg_encodeGo : ∀ (fuel : Nat) (s r : List Nat),
    s.length ≤ fuel →
    decodeSeg (encodeGo fuel s ++ r) = utf8Decode s ++ decodeSeg r := by
  intro fuel
  induction fuel with
  | zero =>
    intro s r hlen
    have hs : s = [] := List.eq_nil_of_length_eq_zero (Nat.le_zero.mp hlen)
    subst hs
    simp [encodeGo, utf8Decode_nil]
  | succ fuel ih =>
    intro s r hlen
    cases s with
    | nil => simp [encodeGo, utf8Decode_nil]
    | cons b rest =>
      simp only [List.length_cons] at hlen
      by_cases hb : b = 38
      · subst hb
        by_cases hrest : rest = []
        · subst hrest
          have he : encodeGo (fuel + 1) [38] ++ r = 38 :: 45 :: r := by
            simp [encodeGo]
          rw [he, decodeSeg_amp_lit,
            utf8Decode_ascii (by intro x hx; simp at hx; omega)]
          simp
        · have he : encodeGo (fuel + 1) (38 :: rest) ++ r
              = 38 :: 45 :: (encodeGo fuel rest ++ r) := by
            simp [encodeGo, hrest]
          rw [he, decodeSeg_amp_lit, ih rest r (by omega),
            utf8Decode_cons_ascii (by omega)]
          simp
      · by_cases hidx : (b :: rest).findIdx (fun x => x = 38)
            < (b :: rest).length
        · have hpos : 0 < (b :: rest).findIdx (fun x => x = 38) := by
            simp [List.findIdx_cons, hb]
          have htake : (b :: rest).take ((b :: rest).findIdx (fun x => x = 38))
              ≠ [] := take_ne_nil_of_pos (by simp) hpos
          have hidx' : (b :: rest).findIdx (fun x => x = 38)
              < rest.length + 1 := by simpa using hidx
          have he : encodeGo (fuel + 1) (b :: rest) ++ r
              = encodeSequence ((b :: rest).take
                  ((b :: rest).findIdx (fun x => x = 38)))
                ++ (encodeGo fuel ((b :: rest).drop
                  ((b :: rest).findIdx (fun x => x = 38))) ++ r) := by
            simp [encodeGo, hb, hidx']
          rw [he, decodeSeg_encodeSequence htake,
            ih ((b :: rest).drop ((b :: rest).findIdx (fun x => x = 38))) r
              (by simp only [List.length_drop, List.length_cons]; omega),
            utf8Decode_split_at_findIdx hidx, List.append_assoc]
        · have hidx' : ¬((b :: rest).findIdx (fun x => x = 38)
              < rest.length + 1) := by simpa using hidx
          have he : encodeGo (fuel + 1) (b :: rest) ++ r
              = encodeSequence (b :: rest) ++ r := by
            simp [encodeGo, hb, hidx']
          rw [he, decodeSeg_encodeSequence (by simp)]

theorem utf8Decode_split_run (name : List Nat) :
    utf8Decode (name.drop (nextInvalidChar name))
      = utf8Decode ((name.drop (nextInvalidChar name)).take
          (nextValidChar (name.drop (nextInvalidChar name))))
        ++ utf8Decode ((name.drop (nextInvalidChar name)).drop
          (nextValidChar (name.drop (nextInvalidChar name)))) := by
  rcases Nat.lt_or_ge (nextValidChar (name.drop (nextInvalidChar name)))
      (name.drop (nextInvalidChar name)).length with hjl | hjl
  · obtain ⟨y, t, hdt, hvy⟩ :=
      drop_nextValidChar_cons (name.drop (nextInvalidChar name)) hjl
    have hy80 : y < 0x80 := by have := isValidChar_bounds hvy; omega
    have := utf8Decode_append ((name.drop (nextInvalidChar name)).drop
        (nextValidChar (name.drop (nextInvalidChar name))))
      (Or.inr ⟨y, t, hdt, hy80⟩)
      ((name.drop (nextInvalidChar name)).take
        (nextValidChar (name.drop (nextInvalidChar name))))
    rwa [List.take_append_drop] at this
  · have hnil : (name.drop (nextInvalidChar name)).drop
        (nextValidChar (name.drop (nextInvalidChar name))) = [] :=
      List.drop_eq_nil_of_le hjl
    have := utf8Decode_append ((name.drop (nextInvalidChar name)).drop
        (nextValidChar (name.drop (nextInvalidChar name))))
      (Or.inl hnil)
      ((name.drop (nextInvalidChar name)).take
        (nextValidChar (name.drop (nextInvalidChar name))))
    rwa [List.take_append_drop] at this

theorem decodeSeg_encodeNameGo : ∀ (fuel : Nat) (name r : List Nat),
    name.length ≤ fuel →
    decodeSeg (encodeNameGo fuel name ++ r)
      = utf8Decode name ++ decodeSeg r := by
  intro fuel
  induction fuel with
  | zero =>
    intro name r hlen
    have hs : name = [] := List.eq_nil_of_length_eq_zero (Nat.le_zero.mp hlen)
    subst hs
    simp [encodeNameGo, utf8Decode_nil]
  | succ fuel ih =>
    intro name r hlen
    by_cases hi : nextInvalidChar name < name.length
    · have hj : 0 < nextValidChar (name.drop (nextInvalidChar name)) :=
        nextValidChar_drop_pos name hi
      have he : encodeNameGo (fuel + 1) name ++ r
          = name.take (nextInvalidChar name)
            ++ (encode ((name.drop (nextInvalidChar name)).take
                (nextValidChar (name.drop (nextInvalidChar name))))
              ++ (encodeNameGo fuel (name.drop (nextInvalidChar name
                + nextValidChar (name.drop (nextInvalidChar name)))) ++ r)) := by
        simp [encodeNameGo, hi]
      have htk80 : ∀ x ∈ name.take (nextInvalidChar name), x < 0x80 := by
        intro x hx
        have := isValidChar_bounds (nextInvalidChar_valid_take name x hx)
        omega
      rw [he, decodeSeg_append_valid (nextInvalidChar_valid_take name),
        encode, decodeSeg_encodeGo _ _ _ le_rfl,
        ih (name.drop (nextInvalidChar name
          + nextValidChar (name.drop (nextInvalidChar name)))) r
          (by simp only [List.length_drop]; omega)]
      have hname : utf8Decode name = name.take (nextInvalidChar name)
          ++ utf8Decode (name.drop (nextInvalidChar name)) := by
        have := utf8Decode_append_ascii htk80 (name.drop (nextInvalidChar name))
        rwa [List.take_append_drop] at this
      have hdd : name.drop (nextInvalidChar name
            + nextValidChar (name.drop (nextInvalidChar name)))
          = (name.drop (nextInvalidChar name)).drop
            (nextValidChar (name.drop (nextInvalidChar name))) := by
        rw [List.drop_drop, Nat.add_comm]
      rw [hname, utf8Decode_split_run name, hdd]
      simp [List.append_assoc]
    · have hall : ∀ b ∈ name, isValidChar b = true :=
        all_valid_of_nextInvalidChar_eq
          (Nat.le_antisymm (nextInvalidChar_le_length name)
            (Nat.le_of_not_lt hi))
      simp only [encodeNameGo, if_neg hi]
      rw [decodeSeg_append_valid hall r,
        utf8Decode_ascii (fun x hx => by
          have := isValidChar_bounds (hall x hx); omega)]

theorem decodeSeg_encSeg (s : List Nat) : decodeSeg (encSeg s) = utf8Decode s := by
  have := decodeSeg_encodeNameGo s.length s [] le_rfl
  simpa [decodeSeg_nil] using this

/-- C7 (counterexample): the codec's mapping on byte strings is *not*
injective: the distinct one-byte folder names `"\xff"` and `"\xfe"` (both
invalid UTF-8) encode to the same segment `"&,,0-"`, because Go's
`[]rune` conversion inside `encodeSequence` replaces every invalid byte
with U+FFFD before the escape is built. -/
theorem encSeg_not_injective :
    encSeg [255] = encSeg [254] ∧ [255] ≠ ([254] : List Nat) := by
  refine ⟨by decide, by decide⟩

/-- C7 (amended): the codec is unambiguous up to Unicode decoding of the
input bytes: whenever two folder names decode (by Go's `[]rune`
conversion, U+FFFD for invalid bytes) to different rune sequences, their
encoded segments differ.  Equivalently, the encoded segment determines
the rune sequence of the name (`decodeSeg_encSeg`); only names whose byte
sequences decode to identical runes — necessarily through the U+FFFD
replacement of invalid UTF-8 — can collide. -/
theorem encSeg_inj_mod_utf8 (s t : List Nat)
    (h : utf8Decode s ≠ utf8Decode t) : encSeg s ≠ encSeg t := by
  intro hEq
  apply h
  rw [← decodeSeg_encSeg s, ← decodeSeg_encSeg t, hEq]

theorem encSeg_inj_mod_utf8_witness : encSeg [65] ≠ encSeg [66] :=
  encSeg_inj_mod_utf8 [65] [66] (by decide)

/-! ### Decimal representations -/

theorem digitChar_toNat : ∀ d, d < 10 → (digitChar d).toNat = 48 + d := by decide

theorem digitChar_isDigit : ∀ d, d < 10 → isDigitCh (digitChar d) = true := by decide

theorem decDigits_fuel_eq : ∀ (f1 f2 n : Nat), n < f1 → n < f2 →
    decDigits f1 n = decDigits f2 n := by
  intro f1
  induction f1 with
  | zero => intro f2 n h1 _; omega
  | succ f ih =>
    intro f2 n h1 h2
    cases f2 with
    | zero => omega
    | succ f2' =>
      by_cases hn : n < 10
      · simp [decDigits, hn]
      · have hd : n / 10 < f ∧ n / 10 < f2' := by omega
        simp [decDigits, hn, ih f2' (n / 10) hd.1 hd.2]

theorem decRepr_unfold (n : Nat) :
    decRepr n = if n < 10 then [digitChar n]
      else decRepr (n / 10) ++ [digitChar (n % 10)] := by
  by_cases h : n < 10
  · simp [decRepr, decDigits, h]
  · have heq : decDigits n (n / 10) = decDigits (n / 10 + 1) (n / 10) :=
      decDigits_fuel_eq n (n / 10 + 1) (n / 10) (by omega) (by omega)
    simp [decRepr, decDigits, h, heq]

theorem decRepr_ne_nil (n : Nat) : decRepr n ≠ [] := by
  rw [decRepr_unfold]
  by_cases h : n < 10 <;> simp [h]

theorem decRepr_digits (n : Nat) : ∀ c ∈ decRepr n, isDigitCh c = true := by
  induction n using Nat.strong_induction_on with
  | _ n ih =>
    rw [decRepr_unfold]
    by_cases h : n < 10
    · simp only [if_pos h, List.mem_singleton]
      intro c hc; subst hc; exact digitChar_isDigit n h
    · simp only [if_neg h, List.mem_append, List.mem_singleton]
      intro c hc
      rcases hc with hc | hc
      · exact ih (n / 10) (by omega) c hc
      · subst hc; exact digitChar_isDigit (n % 10) (by omega)

theorem digitsVal_append_single (l : List Char) (c : Char) :
    digitsVal (l ++ [c]) = digitsVal l * 10 + (c.toNat - 48) := by
  simp [digitsVal, List.foldl_append]

theorem digitsVal_decRepr (n : Nat) : digitsVal (decRepr n) = n := by
  induction n using Nat.strong_induction_on with
  | _ n ih =>
    rw [decRepr_unfold]
    by_cases h : n < 10
    · simp [if_pos h, digitsVal, digitChar_toNat n h]
    · rw [if_neg h, digitsVal_append_single, ih (n / 10) (by omega),
        digitChar_toNat (n % 10) (by omega)]
      omega

theorem decRepr_inj {a b : Nat} (h : decRepr a = decRepr b) : a = b := by
  have := congrArg digitsVal h
  rwa [digitsVal_decRepr, digitsVal_decRepr] at this

/-! ### The delivery engine: success shape and failure handling -/

theorem createMail_success_name {m : Mailbox} {pid : Nat} {env : SysEnv}
    {data : List Nat} {name : List Char} {st : FsState}
    (h : createMail m pid env data = (some name, st)) :
    ∃ host, env.hostname = some host ∧
      name = joinPath m.path ('n' :: 'e' :: 'w' :: [])
        (mkBasename env.sec env.usec pid env.ctr host
          ++ ',' :: 'S' :: '=' :: decRepr data.length) := by
  unfold createMail at h
  cases hh : env.hostname with
  | none => rw [hh] at h; simp at h
  | some host =>
    rw [hh] at h
    dsimp only at h
    refine ⟨host, rfl, ?_⟩
    by_cases ho : env.openOk = false
    · rw [if_pos ho] at h; simp at h
    · rw [if_neg ho] at h
      by_cases hc : env.copyOk = false
      · rw [if_pos hc] at h; simp at h
      · rw [if_neg hc] at h
        by_cases hr : env.renameOk = false
        · rw [if_pos hr] at h; simp at h
        · rw [if_neg hr] at h
          cases hco : changeOwner m.gid m.uid env.chownOk with
          | none => rw [hco] at h; simp at h
          | some o =>
            rw [hco] at h
            simp only [Prod.mk.injEq, Option.some.injEq] at h
            exact h.1.symm

theorem joinPath_inj {dir sub b1 b2 : List Char}
    (h : joinPath dir sub b1 = joinPath dir sub b2) : b1 = b2 := by
  unfold joinPath at h
  simp only [List.append_cancel_left_eq, List.cons.injEq, eq_self_iff_true,
    true_and] at h
  exact h

theorem mkBasename_ctr_inj {sec usec pid c1 c2 : Nat} {host suffix : List Char}
    (h : mkBasename sec usec pid c1 host ++ suffix
       = mkBasename sec usec pid c2 host ++ suffix) : c1 = c2 := by
  unfold mkBasename at h
  simp only [List.append_assoc, List.cons_append, List.append_cancel_left_eq,
    List.cons.injEq, eq_self_iff_true, true_and] at h
  exact decRepr_inj (List.append_cancel_right h)

/-- C1: if the ownership change after the successful rename fails, the
just-published file is removed from `new/` before the error is returned:
after a failed delivery the published file is absent (and no staging file
remains) and an error is reported. -/
theorem createMail_chown_failure_removes (m : Mailbox) (pid : Nat)
    (env : SysEnv) (data : List Nat) (host : List Char)
    (hh : env.hostname = some host) (ho : env.openOk = true)
    (hc : env.copyOk = true) (hr : env.renameOk = true)
    (hu : m.uid ≠ DoNotSetOwner) (hg : m.gid ≠ DoNotSetOwner)
    (hch : env.chownOk = false) :
    (createMail m pid env data).1 = none ∧
    (createMail m pid env data).2.newExists = false ∧
    (createMail m pid env data).2.tmpExists = false := by
  have hco : changeOwner m.gid m.uid env.chownOk = none := by
    simp [changeOwner, hu, hg, hch]
  simp [createMail, hh, ho, hc, hr, hco]

theorem createMail_chown_failure_removes_witness :
    (createMail wMailbox 7 { wEnvOk with chownOk := false } wData).1 = none ∧
    (createMail wMailbox 7 { wEnvOk with chownOk := false } wData).2.newExists = false ∧
    (createMail wMailbox 7 { wEnvOk with chownOk := false } wData).2.tmpExists = false :=
  createMail_chown_failure_removes wMailbox 7 { wEnvOk with chownOk := false }
    wData ('h' :: []) rfl rfl rfl rfl (by decide) (by decide) rfl

/-- C2 (code bug, maildir.go:178): with the owner configured as
uid = 1000, gid = 2000 (neither the `DoNotSetOwner` sentinel), a
successful delivery sets the published file's owner to the configured
*gid* and its group to the configured *uid* — `CreateMail` passes
`(m.gid, m.uid)` to `changeOwner(path, uid, gid)`, swapping the two ids —
instead of owner = uid and group = gid as the claim states. -/
theorem createMail_owner_swapped :
    (createMail wMailbox 7 wEnvOk wData).2.newOwner = some (2000, 1000) ∧
    (createMail wMailbox 7 wEnvOk wData).2.newOwner ≠ some (1000, 2000) := by
  constructor
  · rfl
  · decide

/-- C3 (counterexample): a failing sync does *not* cause an error and
does not remove the staging file's contents from the delivery — with
every other step succeeding and the sync reporting failure, `CreateMail`
still returns a published path, because the source discards the result
of `file.Sync()` (maildir.go:169). -/
theorem createMail_sync_failure_ignored :
    ((createMail wMailbox 7 { wEnvOk with syncOk := false } wData).1).isSome
      = true := by decide

/-- C3 (amended): a failure while creating the staging file or while
copying the input stream into it removes the staging file and surfaces an
error; the sync step's result, however, is ignored: the outcome of
`CreateMail` is entirely independent of whether the sync succeeded. -/
theorem createMail_staging_cleanup (m : Mailbox) (pid : Nat) (env : SysEnv)
    (data : List Nat) :
    (env.openOk = false → (createMail m pid env data).1 = none ∧
      (createMail m pid env data).2.tmpExists = false) ∧
    (env.copyOk = false → (createMail m pid env data).1 = none ∧
      (createMail m pid env data).2.tmpExists = false) ∧
    (∀ b : Bool, createMail m pid { env with syncOk := b } data
      = createMail m pid env data) := by
  obtain ⟨h0, sec, usec, ctr, o, c, sy, r, ch⟩ := env
  refine ⟨?_, ?_, ?_⟩
  · intro ho
    cases h0 <;> simp_all [createMail]
  · intro hc
    cases h0 <;> cases o <;> simp_all [createMail]
  · intro b
    rfl

theorem createMail_staging_cleanup_witness :
    (createMail wMailbox 7 { wEnvOk with copyOk := false } wData).1 = none ∧
    (createMail wMailbox 7 { wEnvOk with copyOk := false } wData).2.tmpExists
      = false :=
  (createMail_staging_cleanup wMailbox 7
    { wEnvOk with copyOk := false } wData).2.1 rfl

/-- C8: the basename of the path returned by a successful delivery of an
N-byte stream matches the grammar
`<seconds>.M<microseconds>P<pid>_<counter>.<hostname>,S=<byte-count>`,
with non-empty decimal numeric fields, and the byte-count field decodes
to exactly N, the number of bytes copied from the stream. -/
theorem createMail_filename_grammar (m : Mailbox) (pid : Nat) (env : SysEnv)
    (data : List Nat) (name : List Char) (st : FsState)
    (h : createMail m pid env data = (some name, st)) :
    ∃ host, env.hostname = some host ∧
      name = joinPath m.path ('n' :: 'e' :: 'w' :: [])
        (mkBasename env.sec env.usec pid env.ctr host
          ++ ',' :: 'S' :: '=' :: decRepr data.length) ∧
      mailFilenameGrammar
        (mkBasename env.sec env.usec pid env.ctr host
          ++ ',' :: 'S' :: '=' :: decRepr data.length) data.length := by
  obtain ⟨host, hh, hname⟩ := createMail_success_name h
  refine ⟨host, hh, hname, decRepr env.sec, decRepr env.usec, decRepr pid,
    decRepr env.ctr, decRepr data.length, host,
    decRepr_ne_nil _, decRepr_digits _, decRepr_ne_nil _, decRepr_digits _,
    decRepr_ne_nil _, decRepr_digits _, decRepr_ne_nil _, decRepr_digits _,
    decRepr_ne_nil _, decRepr_digits _, ?_, digitsVal_decRepr _⟩
  simp [mkBasename, List.append_assoc]

theorem createMail_filename_grammar_witness :
    ∃ host, wEnvOk.hostname = some host ∧
      (createMail wMailbox 7 wEnvOk wData).1.getD []
        = joinPath wMailbox.path ('n' :: 'e' :: 'w' :: [])
            (mkBasename wEnvOk.sec wEnvOk.usec 7 wEnvOk.ctr host
              ++ ',' :: 'S' :: '=' :: decRepr wData.length) ∧
      mailFilenameGrammar
        (mkBasename wEnvOk.sec wEnvOk.usec 7 wEnvOk.ctr host
          ++ ',' :: 'S' :: '=' :: decRepr wData.length) wData.length :=
  createMail_filename_grammar wMailbox 7 wEnvOk wData
    ((createMail wMailbox 7 wEnvOk wData).1.getD [])
    (createMail wMailbox 7 wEnvOk wData).2 (by decide)

/-- C9: the counter channel delivers a fresh value to every delivery —
below the 2^64 wrap limit of Go's `uint` no value is ever reused within
the process — and therefore two back-to-back successful deliveries (the
k-th and (k+1)-th in the process) return different filenames even when
second, microsecond, pid and hostname all coincide. -/
theorem counter_no_reuse_unique_names :
    (∀ j k : Nat, j < 2 ^ 64 → k < 2 ^ 64 → j ≠ k →
      counterStream j ≠ counterStream k) ∧
    (∀ (m : Mailbox) (pid : Nat) (env : SysEnv) (data : List Nat) (k : Nat)
        (n1 n2 : List Char) (s1 s2 : FsState),
      k + 1 < 2 ^ 64 →
      createMail m pid { env with ctr := counterStream k } data = (some n1, s1) →
      createMail m pid { env with ctr := counterStream (k + 1) } data = (some n2, s2) →
      n1 ≠ n2) := by
  constructor
  · intro j k hj hk hne hcon
    unfold counterStream at hcon
    rw [Nat.mod_eq_of_lt hj, Nat.mod_eq_of_lt hk] at hcon
    exact hne hcon
  · intro m pid env data k n1 n2 s1 s2 hk h1 h2 hEq
    obtain ⟨host1, hh1, hn1⟩ := createMail_success_name h1
    obtain ⟨host2, hh2, hn2⟩ := createMail_success_name h2
    dsimp only at hh1 hh2 hn1 hn2
    have hhost : host1 = host2 := by
      have := hh1.symm.trans hh2
      injection this
    subst hhost
    subst hn1
    subst hn2
    have hbase := joinPath_inj hEq
    have hctr := mkBasename_ctr_inj hbase
    have heq : k = k + 1 := by
      have h1' : counterStream k = k := Nat.mod_eq_of_lt (by omega)
      have h2' : counterStream (k + 1) = k + 1 := Nat.mod_eq_of_lt hk
      rw [h1', h2'] at hctr
      exact hctr
    omega

theorem counter_no_reuse_unique_names_witness :
    counterStream 3 ≠ counterStream 4 ∧ wName 3 ≠ wName 4 :=
  ⟨counter_no_reuse_unique_names.1 3 4 (by decide) (by decide) (by decide),
   counter_no_reuse_unique_names.2 wMailbox 7 wEnvOk wData 3 (wName 3) (wName 4)
     (createMail wMailbox 7 (wEnvK 3) wData).2
     (createMail wMailbox 7 (wEnvK 4) wData).2
     (by decide) (by decide) (by decide)⟩

end Maildir
